import Mathlib

/-!
# confluence-html-markdown-converter: sanitizer and normalizer

A shallow embedding of `preProcessHTML`, `replaceAll` and `postProcessMarkdown`
from `main.go`, together with the library routines they call
(`strings.HasPrefix`, `strings.HasSuffix`, `strings.TrimSuffix`,
`strings.ReplaceAll`, `bufio.Scanner` with `bufio.ScanLines`,
`regexp.Regexp.ReplaceAllString`).

Texts are sequences of Unicode code points (`Str`), i.e. valid UTF-8 strings.
A Go map is visited in an unspecified order: the order in which the rule table
of the method is visited is the argument `order` of `postProcessMarkdown`, a
permutation of the table. A `panic` is the result `none`.
-/

namespace Converter

/-- A Go string holding valid UTF-8, as the list of its code points. -/
abbrev Str := List Char

/-! ## Library: package strings -/

/-- Go `strings.HasPrefix(s, pre)`. -/
def HasPrefix (s pre : Str) : Bool := pre.isPrefixOf s

/-- Go `strings.HasSuffix(s, suf)`. -/
def HasSuffix (s suf : Str) : Bool := suf.isSuffixOf s

/-- Go `strings.TrimSuffix(s, suf)`: `s` without the trailing `suf` when `s`
ends with it, `s` itself otherwise. -/
def TrimSuffix (s suf : Str) : Str :=
  if HasSuffix s suf then s.take (s.length - suf.length) else s

/-! ## HTML nodes (package golang.org/x/net/html) -/

/-- Go `html.Attribute`. -/
structure Attribute where
  Namespace : Str
  Key : Str
  Val : Str
  deriving DecidableEq, Repr

/-- Go `html.Node`, with the sibling chain that starts at `FirstChild`
given as the ordered list of children. `Typ` is the `NodeType` code (field
`Type`) and
`DataAtom` the atom code. -/
inductive Node where
  | mk (Typ : Nat) (DataAtom : Nat) (Data : Str) (Namespace : Str)
      (Attr : List Attribute) (children : List Node)

/-- Attribute list of a node. -/
def Node.Attr : Node → List Attribute
  | .mk _ _ _ _ a _ => a

/-- Ordered children of a node. -/
def Node.children : Node → List Node
  | .mk _ _ _ _ _ c => c

/-- One iteration of the attribute loop of `preProcessHTML` (the `switch` on
`attr.Key`): the pair of the `keep` flag and the possibly rewritten `attr`. -/
def attrStep (attr : Attribute) : Bool × Attribute :=
  if attr.Key = "id".toList ∨ attr.Key = "class".toList ∨ attr.Key = "style".toList then
    (false, attr)
  else if attr.Key = "href".toList then
    if HasPrefix attr.Val "http://".toList || HasPrefix attr.Val "https://".toList then
      (true, attr)
    else if HasSuffix attr.Val ".html".toList then
      (true, { attr with Val := TrimSuffix attr.Val ".html".toList })
    else
      (true, attr)
  else
    (true, attr)

/-- The loop `for _, attr := range node.Attr` of `preProcessHTML`, with the
accumulator `newAttrs`. -/
def attrLoop : List Attribute → List Attribute → List Attribute
  | newAttrs, [] => newAttrs
  | newAttrs, attr :: rest =>
    let r := attrStep attr
    if r.1 then attrLoop (newAttrs ++ [r.2]) rest else attrLoop newAttrs rest

mutual
/-- Go `preProcessHTML(node)`: the node after the in-place update. -/
def preProcessHTML : Node → Node
  | .mk ty atom data ns attr children =>
    .mk ty atom data ns (attrLoop [] attr) (preProcessChildren children)
/-- The loop over `node.FirstChild`, `child.NextSibling`, ... of
`preProcessHTML`. -/
def preProcessChildren : List Node → List Node
  | [] => []
  | child :: rest => preProcessHTML child :: preProcessChildren rest
end

/-! ## Observations on node trees -/

mutual
/-- All nodes of the subtree rooted at a node: the node itself and every
descendant, in document order. -/
def Node.subtree : Node → List Node
  | .mk ty atom data ns attr children =>
    .mk ty atom data ns attr children :: subtreeList children
/-- Nodes of the subtrees of a list of siblings. -/
def subtreeList : List Node → List Node
  | [] => []
  | c :: cs => c.subtree ++ subtreeList cs
end

mutual
/-- The tree with every attribute list replaced by its image under `f`;
types, data, namespaces and the shape of the tree are kept. -/
def Node.mapAttr (f : List Attribute → List Attribute) : Node → Node
  | .mk ty atom data ns attr children =>
    .mk ty atom data ns (f attr) (mapAttrList f children)
/-- `Node.mapAttr` on a list of siblings. -/
def mapAttrList (f : List Attribute → List Attribute) : List Node → List Node
  | [] => []
  | c :: cs => c.mapAttr f :: mapAttrList f cs
end

/-- The `href` rule in the words of the specification: an absolute
`http://` or `https://` value is kept; otherwise a trailing `.html` is
removed; otherwise the value is kept. -/
def hrefSpec (v : Str) : Str :=
  if "http://".toList <+: v ∨ "https://".toList <+: v then v
  else if ".html".toList <:+ v then v.dropLast.dropLast.dropLast.dropLast.dropLast
  else v

/-- Key is one of `id`, `class`, `style`. -/
def isDropped (a : Attribute) : Bool :=
  a.Key = "id".toList ∨ a.Key = "class".toList ∨ a.Key = "style".toList

/-- Key is `href`. -/
def isHref (a : Attribute) : Bool := a.Key = "href".toList

/-- Key is none of `id`, `class`, `style`, `href`. -/
def isOther (a : Attribute) : Bool := !isDropped a && !isHref a

/-- An example tree: a paragraph with `id` and `title` attributes whose only
child is a link with `class` and `href` attributes. -/
def sampleNode : Node :=
  .mk 3 0 "p".toList [] [⟨[], "id".toList, "y".toList⟩, ⟨[], "title".toList, "t".toList⟩]
    [.mk 3 0 "a".toList []
      [⟨[], "class".toList, "x".toList⟩, ⟨[], "href".toList, "page.html".toList⟩] []]

/-! ## Library: package strings (continued) -/

/-- Scan of `strings.ReplaceAll` for a non-empty `old`: `skip` counts the
characters of the current occurrence that are still to be passed over. -/
def replaceScan (old new : Str) : Nat → Str → Str
  | _, [] => []
  | k + 1, _ :: t => replaceScan old new k t
  | 0, c :: t =>
    if old.isPrefixOf (c :: t) then new ++ replaceScan old new (old.length - 1) t
    else c :: replaceScan old new 0 t

/-- Go `strings.ReplaceAll(s, old, new)`: the non-overlapping occurrences of
`old`, found from left to right, are replaced by `new`. For an empty `old`,
`new` is inserted at the start and after every code point. -/
def ReplaceAll (s old new : Str) : Str :=
  if old = new then s
  else if old = [] then new ++ s.flatMap (fun c => c :: new)
  else replaceScan old new 0 s

/-! ## Library: bufio.Scanner with bufio.ScanLines -/

/-- Go `bufio.MaxScanTokenSize`. -/
def MaxScanTokenSize : Nat := 64 * 1024

/-- Length in bytes of the UTF-8 encoding. -/
def byteLen : Str → Nat
  | [] => 0
  | c :: t => c.utf8Size + byteLen t

/-- The input cut at every newline; a final newline ends the last line and
opens no further one. -/
def rawLines : Str → List Str
  | [] => []
  | c :: cs =>
    if c = '\n' then [] :: rawLines cs
    else match rawLines cs with
      | [] => [[c]]
      | l :: ls => (c :: l) :: ls

/-- Go `dropCR`: one trailing carriage return is removed. -/
def dropCR (l : Str) : Str :=
  if l.getLast? = some '\r' then l.dropLast else l

/-- The tokens that `scanner.Scan()` / `scanner.Text()` yield over the whole
input, or `none` when `scanner.Err()` is `bufio.ErrTooLong`: a line that does
not fit the buffer of `MaxScanTokenSize` bytes. -/
def scanLines (s : Str) : Option (List Str) :=
  if (rawLines s).all (fun l => decide (byteLen l < MaxScanTokenSize)) then
    some ((rawLines s).map dropCR)
  else none

/-! ## Library: package regexp -/

/-- Syntax of the regular expressions used by the rule tables. -/
inductive Regex where
  /-- Empty expression. -/
  | eps
  /-- One literal character. -/
  | lit (c : Char)
  /-- Character class given by ranges, negated when `neg`. -/
  | cls (neg : Bool) (ranges : List (Char × Char))
  /-- The dot: any character but newline. -/
  | dot
  /-- The caret: beginning of text. -/
  | bot
  /-- The dollar: end of text. -/
  | eot
  /-- Concatenation. -/
  | cat (a b : Regex)
  /-- Alternation, left preferred. -/
  | alt (a b : Regex)
  /-- Repetition, zero or more; `greedy` prefers more. -/
  | star (greedy : Bool) (r : Regex)
  /-- Capturing group number `i`. -/
  | cap (i : Nat) (r : Regex)
  deriving DecidableEq, Repr

/-- One or more: `r+` (greedy) or `r+?`. -/
def Regex.plus (greedy : Bool) (r : Regex) : Regex := .cat r (.star greedy r)

/-- Concatenation of the literal characters of a string. -/
def Regex.str : Str → Regex
  | [] => .eps
  | c :: t => .cat (.lit c) (Regex.str t)

/-- Matcher state: position in the text, rest of the text, captured groups
(latest first). -/
structure MState where
  pos : Nat
  rest : Str
  caps : List (Nat × Str)
  deriving DecidableEq, Repr

/-- Membership of a character in a class. -/
def inClass (neg : Bool) (ranges : List (Char × Char)) (c : Char) : Bool :=
  neg != ranges.any (fun r => decide (r.1 ≤ c) && decide (c ≤ r.2))

/-- Repetition of `step`, trying at most `fuel` rounds; a round that does not
advance is abandoned. -/
def starLoop (step : MState → (MState → Option MState) → Option MState) (greedy : Bool) :
    Nat → MState → (MState → Option MState) → Option MState
  | 0, s, k => k s
  | n + 1, s, k =>
    let more := step s (fun s1 => if s.pos < s1.pos then starLoop step greedy n s1 k else none)
    if greedy then
      match more with
      | some r => some r
      | none => k s
    else
      match k s with
      | some r => some r
      | none => more

/-- Backtracking matcher: the first match of `r` at state `s` followed by the
continuation `k`, in leftmost-first preference order. -/
def Regex.run : Regex → MState → (MState → Option MState) → Option MState
  | .eps, s, k => k s
  | .lit c, s, k =>
    match s.rest with
    | d :: t => if d = c then k { s with pos := s.pos + 1, rest := t } else none
    | [] => none
  | .cls neg ranges, s, k =>
    match s.rest with
    | d :: t => if inClass neg ranges d then k { s with pos := s.pos + 1, rest := t } else none
    | [] => none
  | .dot, s, k =>
    match s.rest with
    | d :: t => if d = '\n' then none else k { s with pos := s.pos + 1, rest := t }
    | [] => none
  | .bot, s, k => if s.pos = 0 then k s else none
  | .eot, s, k => if s.rest = [] then k s else none
  | .cat a b, s, k => a.run s (fun s1 => b.run s1 k)
  | .alt a b, s, k =>
    match a.run s k with
    | some r => some r
    | none => b.run s k
  | .star greedy r, s, k => starLoop r.run greedy (s.rest.length + 1) s k
  | .cap i r, s, k =>
    r.run s (fun s1 => k { s1 with caps := (i, s.rest.take (s1.pos - s.pos)) :: s1.caps })

/-- First match starting at the current position. -/
def matchHere (re : Regex) (pos : Nat) (rest : Str) : Option MState :=
  re.run ⟨pos, rest, []⟩ some

/-- Leftmost match at or after the current position: the characters passed
over before the match and the state at the end of the match. -/
def search (re : Regex) : Nat → Str → Option (Str × MState)
  | pos, [] => (matchHere re pos []).map (fun m => ([], m))
  | pos, c :: t =>
    match matchHere re pos (c :: t) with
    | some m => some ([], m)
    | none => (search re (pos + 1) t).map (fun r => (c :: r.1, r.2))

/-- Characters allowed in the name of a template variable: letters, digits
and the underscore. The templates of the rule tables are ASCII, so the ASCII
letters and digits stand for `unicode.IsLetter` and `unicode.IsDigit`. -/
def isNameChar (c : Char) : Bool := c.isAlphanum || c = '_'

/-- The decimal number a variable name denotes (`none` for a name that is
not a number without leading zero). A number too large to be a group index
denotes no group either way. -/
def nameNum (name : Str) : Option Nat :=
  if name.all Char.isDigit && !(name.head? = some '0' && 1 < name.length) then
    some (name.foldl (fun n c => 10 * n + (c.toNat - '0'.toNat)) 0)
  else none

/-- Text of group `i` in a capture list, empty when the group did not take
part in the match. -/
def capText (caps : List (Nat × Str)) (i : Nat) : Str :=
  match caps.find? (fun p => p.1 = i) with
  | some p => p.2
  | none => []

/-- Go `Regexp.expand` for an expression without named groups: `$name` and
`$\x7bname\x7d` are replaced by the group a numeric name denotes and by
nothing for any other name; the name is the longest run of letters, digits
and underscores; `$$` is a dollar sign; a dollar sign followed by no name
stands for itself. `whole` is the text of the whole match. -/
def expand (whole : Str) (caps : List (Nat × Str)) : Nat → Str → Str
  | 0, _ => []
  | _ + 1, [] => []
  | n + 1, c :: t =>
    if c = '$' then
      match t with
      | [] => ['$']
      | d :: t1 =>
        if d = '$' then '$' :: expand whole caps n t1
        else
          let brace := decide (d = Char.ofNat 123)
          let body := if brace then t1 else d :: t1
          let name := body.takeWhile isNameChar
          let after := body.dropWhile isNameChar
          if name = [] then '$' :: expand whole caps n t
          else if brace && after.head? ≠ some (Char.ofNat 125) then '$' :: expand whole caps n t
          else
            let rest := if brace then after.tail else after
            let sub := match nameNum name with
              | some 0 => whole
              | some i => capText caps i
              | none => []
            sub ++ expand whole caps n rest
    else c :: expand whole caps n t

/-- The loop of Go `Regexp.replaceAll`: `pos` is `searchPos`, `rest` the text
from `searchPos` on, `gap` the text between `lastMatchEnd` and `searchPos`. -/
def replaceLoop (re : Regex) (repl : Str) : Nat → Nat → Str → Str → Str
  | 0, _, gap, rest => gap ++ rest
  | n + 1, pos, gap, rest =>
    match search re pos rest with
    | none => gap ++ rest
    | some (skipped, m) =>
      let start := pos + skipped.length
      let lastMatchEnd := pos - gap.length
      let whole := (rest.drop skipped.length).take (m.pos - start)
      let out := gap ++ skipped ++
        (if lastMatchEnd < m.pos ∨ start = 0 then expand whole m.caps (repl.length + 1) repl
         else [])
      if pos < m.pos then out ++ replaceLoop re repl n m.pos [] m.rest
      else
        match rest with
        | [] => out
        | c :: t => out ++ replaceLoop re repl n (pos + 1) [c] t

/-- Go `re.ReplaceAllString(src, repl)`. -/
def ReplaceAllString (re : Regex) (src repl : Str) : Str :=
  replaceLoop re repl (src.length + 1) 0 [] src

/-! ## main.go: rule tables and the normalizer -/

/-- A rule: compiled expression and replacement template. -/
abbrev Rule := Regex × Str

/-- The word class `\w` as ranges; `\W` is its negation. -/
def wordRanges : List (Char × Char) := [('0', '9'), ('A', 'Z'), ('a', 'z'), ('_', '_')]

/-- The expression `\n\n\n`. -/
def reNewlines : Regex := Regex.str "\n\n\n".toList

/-- The expression `^:::.*$`. -/
def reFence : Regex := .cat .bot (.cat (Regex.str ":::".toList) (.cat (.star true .dot) .eot))

/-- The expression made of a caret, three backticks, a space and `.*`. -/
def reCode : Regex :=
  .cat .bot (.cat (Regex.str [Char.ofNat 96, Char.ofNat 96, Char.ofNat 96, ' ']) (.star true .dot))

/-- The expression `[\x7b][.#][A-Za-z0-9-]+?[\x7d]`. -/
def reAttr : Regex :=
  .cat (.cls false [(Char.ofNat 123, Char.ofNat 123)])
    (.cat (.cls false [('.', '.'), ('#', '#')])
      (.cat (Regex.plus false (.cls false [('A', 'Z'), ('a', 'z'), ('0', '9'), ('-', '-')]))
        (.cls false [(Char.ofNat 125, Char.ofNat 125)])))

/-- The expression `(\W|^)\[(.*)]`. -/
def reBracket : Regex :=
  .cat (.cap 1 (.alt (.cls true wordRanges) .bot))
    (.cat (.lit '[') (.cat (.cap 2 (.star true .dot)) (.lit ']')))

/-- The expression `^<div>$`. -/
def reDiv : Regex := .cat .bot (.cat (Regex.str "<div>".toList) .eot)

/-- Table `globalRegexesToReplace`. -/
def globalRegexesToReplace : List Rule := [(reNewlines, "\n\n".toList)]

/-- Table `pandocRegexesToReplace`, in the order of the source text. -/
def pandocRegexesToReplace : List Rule :=
  [(reFence, []),
   (reCode, [Char.ofNat 96, Char.ofNat 96, Char.ofNat 96]),
   (reAttr, []),
   (reBracket, "__$2__".toList)]

/-- Table `godownRegexesToReplace`. -/
def godownRegexesToReplace : List Rule := [(reDiv, [])]

/-- The loop body of `replaceAll`: every scanned line, rewritten, followed by
a newline. -/
def writeLines (regex : Regex) (repl : Str) : List Str → Str
  | [] => []
  | l :: ls => ReplaceAllString regex l repl ++ '\n' :: writeLines regex repl ls

/-- Go `replaceAll(str, regex, repl)`; `none` is the `panic(err)` on a
scanner error. -/
def replaceAll (str : Str) (regex : Regex) (repl : Str) : Option Str :=
  match scanLines str with
  | some ls => some (writeLines regex repl ls)
  | none => none

/-- The table the `switch method` selects (`nil` for any other method). -/
def regexesToReplace (method : Str) : List Rule :=
  if method = "pandoc".toList then pandocRegexesToReplace
  else if method = "godown".toList then godownRegexesToReplace
  else []

/-- The loop `for _, thingToRemove := range stuffToRemove`. -/
def removeStuff : List Str → Str → Str
  | [], markdown => markdown
  | thingToRemove :: rest, markdown => removeStuff rest (ReplaceAll markdown thingToRemove [])

/-- The loop `for regex, repl := range regexesToReplace`, the entries visited
in the order `order`. -/
def applyRules : List Rule → Str → Option Str
  | [], markdown => some markdown
  | (regex, repl) :: rest, markdown =>
    match replaceAll markdown regex repl with
    | some m => applyRules rest m
    | none => none

/-- The loop `for regex, repl := range globalRegexesToReplace`. -/
def applyGlobal : List Rule → Str → Str
  | [], markdown => markdown
  | (regex, repl) :: rest, markdown => applyGlobal rest (ReplaceAllString regex markdown repl)

/-- First statement of `postProcessMarkdown`. -/
def stepContinuation (method markdown : Str) : Str :=
  if method = "pandoc".toList then ReplaceAll markdown "\n\\\n".toList "\n".toList else markdown

/-- Go `postProcessMarkdown(markdown)` for the globals `method` and
`stuffToRemove`. The map of the method is visited in the order `order`, a
permutation of `regexesToReplace method`; `none` is a panic. -/
def postProcessMarkdown (method : Str) (stuffToRemove : List Str) (order : List Rule)
    (markdown : Str) : Option Str :=
  match applyRules order (removeStuff stuffToRemove (stepContinuation method markdown)) with
  | some m => some (applyGlobal globalRegexesToReplace m)
  | none => none

/-! ## Reference functions for the statements -/

/-- Every occurrence of three newlines, found from left to right without
overlap, becomes two newlines. -/
def collapse3 : Str → Str
  | '\n' :: '\n' :: '\n' :: t => '\n' :: '\n' :: collapse3 t
  | c :: t => c :: collapse3 t
  | [] => []

/-- Every line followed by a newline. -/
def joinLines : List Str → Str
  | [] => []
  | l :: ls => l ++ '\n' :: joinLines ls

/-! ## Sanitizer: lemmas -/

theorem attrLoop_eq (acc l : List Attribute) :
    attrLoop acc l =
      acc ++ l.filterMap (fun a => if (attrStep a).1 then some (attrStep a).2 else none) := by
  induction l generalizing acc with
  | nil => simp [attrLoop]
  | cons a l ih =>
    simp only [attrLoop, List.filterMap_cons]
    split <;> rename_i h <;> simp [ih, h]

theorem attrStep_key (a : Attribute) : (attrStep a).2.Key = a.Key := by
  unfold attrStep
  split_ifs <;> rfl

theorem attrStep_keep (a : Attribute) : (attrStep a).1 = !isDropped a := by
  unfold attrStep isDropped
  by_cases h : a.Key = "id".toList ∨ a.Key = "class".toList ∨ a.Key = "style".toList
  · rw [if_pos h, decide_eq_true h]; rfl
  · rw [if_neg h, decide_eq_false h]; split_ifs <;> rfl

theorem trimSuffix_append (w suf : Str) : TrimSuffix (w ++ suf) suf = w := by
  simp [TrimSuffix, HasSuffix]

theorem attrStep_other (a : Attribute) (h1 : isDropped a = false) (h2 : isHref a = false) :
    attrStep a = (true, a) := by
  unfold attrStep
  rw [if_neg (of_decide_eq_false h1), if_neg (of_decide_eq_false h2)]

theorem hrefSpec_html (w : Str) (h : ¬ ("http://".toList <+: w ++ ".html".toList))
    (h2 : ¬ ("https://".toList <+: w ++ ".html".toList)) :
    hrefSpec (w ++ ".html".toList) = w := by
  unfold hrefSpec
  rw [if_neg (by tauto), if_pos (List.suffix_append _ _)]
  have : ".html".toList = [Char.ofNat 46, 'h', 't', 'm', 'l'] := rfl
  rw [this]
  simp [List.dropLast_append_cons]

theorem attrStep_href (a : Attribute) (h : isHref a = true) :
    attrStep a = (true, { a with Val := hrefSpec a.Val }) := by
  have hk : a.Key = "href".toList := by simpa [isHref] using h
  unfold attrStep
  rw [if_neg (by rw [hk]; decide), if_pos hk]
  by_cases hp : "http://".toList <+: a.Val ∨ "https://".toList <+: a.Val
  · have : (HasPrefix a.Val "http://".toList || HasPrefix a.Val "https://".toList) = true := by
      simpa [HasPrefix] using hp
    have hv : hrefSpec a.Val = a.Val := by unfold hrefSpec; rw [if_pos hp]
    rw [if_pos this, hv]
  · have : ¬ ((HasPrefix a.Val "http://".toList || HasPrefix a.Val "https://".toList) = true) := by
      simpa [HasPrefix] using hp
    rw [if_neg this]
    by_cases hs : ".html".toList <:+ a.Val
    · rw [if_pos (by simpa [HasSuffix] using hs)]
      obtain ⟨w, hw⟩ := hs
      have hp1 : ¬ ("http://".toList <+: w ++ ".html".toList) := by rw [hw]; tauto
      have hp2 : ¬ ("https://".toList <+: w ++ ".html".toList) := by rw [hw]; tauto
      rw [← hw, trimSuffix_append, hrefSpec_html w hp1 hp2]
    · have hv : hrefSpec a.Val = a.Val := by unfold hrefSpec; rw [if_neg hp, if_neg hs]
      rw [if_neg (by simpa [HasSuffix] using hs), hv]

mutual
theorem preProcessHTML_mapAttr (f g : List Attribute → List Attribute)
    (h : ∀ l, f (attrLoop [] l) = g l) :
    ∀ n : Node, (preProcessHTML n).mapAttr f = n.mapAttr g
  | .mk ty atom data ns attr children => by
    simp only [preProcessHTML, Node.mapAttr, h]
    rw [preProcessChildren_mapAttr f g h children]
theorem preProcessChildren_mapAttr (f g : List Attribute → List Attribute)
    (h : ∀ l, f (attrLoop [] l) = g l) :
    ∀ l : List Node, mapAttrList f (preProcessChildren l) = mapAttrList g l
  | [] => by simp [preProcessChildren, mapAttrList]
  | c :: cs => by
    simp only [preProcessChildren, mapAttrList]
    rw [preProcessHTML_mapAttr f g h c, preProcessChildren_mapAttr f g h cs]
end

mutual
theorem mem_subtree_preProcessHTML (m : Node) :
    ∀ n : Node, m ∈ (preProcessHTML n).subtree →
      ∃ m0, m0 ∈ n.subtree ∧ m.Attr = attrLoop [] m0.Attr
  | .mk ty atom data ns attr children => by
    intro hm
    simp only [preProcessHTML, Node.subtree, List.mem_cons] at hm
    rcases hm with hm | hm
    · exact ⟨.mk ty atom data ns attr children, by simp [Node.subtree], by simp [hm, Node.Attr]⟩
    · obtain ⟨m0, h0, h1⟩ := mem_subtreeList_preProcessChildren m children hm
      exact ⟨m0, by simp [Node.subtree, h0], h1⟩
theorem mem_subtreeList_preProcessChildren (m : Node) :
    ∀ l : List Node, m ∈ subtreeList (preProcessChildren l) →
      ∃ m0, m0 ∈ subtreeList l ∧ m.Attr = attrLoop [] m0.Attr
  | [] => by simp [preProcessChildren, subtreeList]
  | c :: cs => by
    intro hm
    simp only [preProcessChildren, subtreeList, List.mem_append] at hm
    rcases hm with hm | hm
    · obtain ⟨m0, h0, h1⟩ := mem_subtree_preProcessHTML m c hm
      exact ⟨m0, by simp [subtreeList, h0], h1⟩
    · obtain ⟨m0, h0, h1⟩ := mem_subtreeList_preProcessChildren m cs hm
      exact ⟨m0, by simp [subtreeList, h0], h1⟩
end

/-! ## Sanitizer: the claims -/

theorem mem_attrLoop (a : Attribute) (l : List Attribute) (ha : a ∈ attrLoop [] l) :
    ∃ a0, a0 ∈ l ∧ isDropped a0 = false ∧ a = (attrStep a0).2 := by
  rw [attrLoop_eq, List.nil_append, List.mem_filterMap] at ha
  obtain ⟨a0, h0, h1⟩ := ha
  by_cases hk : (attrStep a0).1 = true
  · rw [if_pos hk] at h1
    refine ⟨a0, h0, ?_, (Option.some.inj h1).symm⟩
    rw [attrStep_keep] at hk
    simpa using hk
  · rw [if_neg hk] at h1
    exact absurd h1 (by simp)

/-- C1: for every node tree, after `preProcessHTML` no node of the subtree
(the node itself or a descendant at any depth) carries an attribute whose key
is `id`, `class` or `style`. -/
theorem preProcessHTML_drops_id_class_style (node m : Node) (a : Attribute)
    (hm : m ∈ (preProcessHTML node).subtree) (ha : a ∈ m.Attr) :
    a.Key ≠ "id".toList ∧ a.Key ≠ "class".toList ∧ a.Key ≠ "style".toList := by
  obtain ⟨m0, _, hattr⟩ := mem_subtree_preProcessHTML m node hm
  rw [hattr] at ha
  obtain ⟨a0, _, hd, rfl⟩ := mem_attrLoop a m0.Attr ha
  rw [attrStep_key]
  have := of_decide_eq_false hd
  tauto

theorem preProcessHTML_drops_id_class_style_witness :
    (Node.mk 3 0 "a".toList [] [⟨[], "href".toList, "page".toList⟩] []) ∈
        (preProcessHTML sampleNode).subtree ∧
      (⟨[], "href".toList, "page".toList⟩ : Attribute) ∈
        (Node.mk 3 0 "a".toList [] [⟨[], "href".toList, "page".toList⟩] []).Attr ∧
      ("href".toList ≠ "id".toList ∧ "href".toList ≠ "class".toList ∧
        "href".toList ≠ "style".toList) :=
  ⟨List.mem_cons_of_mem _ (List.mem_cons_self _ _), List.mem_cons_self _ _,
    preProcessHTML_drops_id_class_style sampleNode
      (Node.mk 3 0 "a".toList [] [⟨[], "href".toList, "page".toList⟩] [])
      ⟨[], "href".toList, "page".toList⟩
      (List.mem_cons_of_mem _ (List.mem_cons_self _ _)) (List.mem_cons_self _ _)⟩

/-- C2: in every node of the sanitized subtree the `href` attributes are the
`href` attributes of the original node, all kept and in the same order, and
the value of each is: unchanged when it starts with `http://` or `https://`;
otherwise, when it ends with `.html`, the old value without that one trailing
`.html`; otherwise unchanged. -/
theorem preProcessHTML_href (node : Node) :
    (preProcessHTML node).mapAttr (List.filter isHref) =
        node.mapAttr (fun l => (l.filter isHref).map (fun a => { a with Val := hrefSpec a.Val })) ∧
      (∀ v : Str, ("http://".toList <+: v ∨ "https://".toList <+: v) → hrefSpec v = v) ∧
      (∀ w : Str, ¬ ("http://".toList <+: w ++ ".html".toList) →
        ¬ ("https://".toList <+: w ++ ".html".toList) → hrefSpec (w ++ ".html".toList) = w) ∧
      (∀ v : Str, ¬ (".html".toList <:+ v) → hrefSpec v = v) := by
  refine ⟨?_, ?_, hrefSpec_html, ?_⟩
  · apply preProcessHTML_mapAttr
    intro l
    induction l with
    | nil => rfl
    | cons a l ih =>
      rw [attrLoop_eq, List.nil_append] at ih ⊢
      rw [List.filterMap_cons]
      by_cases hd : isDropped a = true
      · have hk : (attrStep a).1 = false := by rw [attrStep_keep, hd]; rfl
        have hh : isHref a = false := by
          unfold isDropped at hd; unfold isHref
          have := of_decide_eq_true hd
          apply decide_eq_false
          rcases this with h | h | h <;> rw [h] <;> decide
        rw [hk, List.filter_cons_of_neg (by simp [hh])]
        simpa using ih
      · have hd : isDropped a = false := by simpa using hd
        have hk : (attrStep a).1 = true := by rw [attrStep_keep, hd]; rfl
        rw [hk]
        by_cases hh : isHref a = true
        · have h2 : isHref (attrStep a).2 = true := by
            unfold isHref at hh ⊢; rw [attrStep_key]; exact hh
          simp only [if_true]
          rw [List.filter_cons_of_pos h2, List.filter_cons_of_pos hh, List.map_cons, ih,
            attrStep_href a hh]
        · have h2 : ¬ isHref (attrStep a).2 = true := by
            unfold isHref at hh ⊢; rw [attrStep_key]; exact hh
          simp only [if_true]
          rw [List.filter_cons_of_neg h2, List.filter_cons_of_neg hh, ih]
  · intro v hv
    unfold hrefSpec
    rw [if_pos hv]
  · intro v hv
    unfold hrefSpec
    split_ifs <;> rfl

/-- C3: `preProcessHTML` changes nothing but the dropped and rewritten
attributes: in every node the attributes whose key is not `id`, `class`,
`style` or `href` are the same as before (same key, value and order), and the
tree (type, data, namespace and ordered children of every node) is the same. -/
theorem preProcessHTML_frame (node : Node) :
    (preProcessHTML node).mapAttr (List.filter isOther) = node.mapAttr (List.filter isOther) ∧
      (preProcessHTML node).mapAttr (fun _ => []) = node.mapAttr (fun _ => []) := by
  refine ⟨?_, preProcessHTML_mapAttr _ _ (fun _ => rfl) node⟩
  apply preProcessHTML_mapAttr
  intro l
  induction l with
  | nil => rfl
  | cons a l ih =>
    rw [attrLoop_eq, List.nil_append] at ih ⊢
    rw [List.filterMap_cons]
    by_cases hd : isDropped a = true
    · have hk : (attrStep a).1 = false := by rw [attrStep_keep, hd]; rfl
      rw [hk, List.filter_cons_of_neg (by simp [isOther, hd])]
      simpa using ih
    · have hd : isDropped a = false := by simpa using hd
      have hk : (attrStep a).1 = true := by rw [attrStep_keep, hd]; rfl
      rw [hk]
      simp only [if_true]
      by_cases hh : isHref a = true
      · have h2 : isHref (attrStep a).2 = true := by
          unfold isHref at hh ⊢; rw [attrStep_key]; exact hh
        rw [List.filter_cons_of_neg (by simp [isOther, h2]),
          List.filter_cons_of_neg (by simp [isOther, hh]), ih]
      · have hh : isHref a = false := by simpa using hh
        rw [attrStep_other a hd hh]
        by_cases ho : isOther a = true
        · rw [List.filter_cons_of_pos ho, List.filter_cons_of_pos ho, ih]
        · rw [List.filter_cons_of_neg ho, List.filter_cons_of_neg ho, ih]

/-! ## Matcher: lemmas -/

theorem run_str (w : Str) (pos : Nat) (rest : Str) (caps : List (Nat × Str))
    (k : MState → Option MState) :
    (Regex.str w).run ⟨pos, rest, caps⟩ k =
      if w <+: rest then k ⟨pos + w.length, rest.drop w.length, caps⟩ else none := by
  induction w generalizing pos rest with
  | nil => simp [Regex.str, Regex.run]
  | cons c w ih =>
    cases rest with
    | nil => simp [Regex.str, Regex.run]
    | cons d t =>
      simp only [Regex.str, Regex.run, ih, List.cons_prefix_cons, List.length_cons,
        List.drop_succ_cons]
      by_cases hd : d = c
      · subst hd
        simp only [true_and, if_true]
        split_ifs <;> simp [Nat.add_assoc, Nat.add_comm 1]
      · have : ¬ c = d := fun h => hd h.symm
        simp [hd, this]

theorem search_bot_pos (r : Regex) (pos : Nat) (rest : Str) (h : 0 < pos) :
    search (.cat .bot r) pos rest = none := by
  induction rest generalizing pos with
  | nil => simp [search, matchHere, Regex.run]; omega
  | cons c t ih =>
    have hm : matchHere (.cat .bot r) pos (c :: t) = none := by
      simp [matchHere, Regex.run]; omega
    simp [search, hm, ih (pos + 1) (by omega)]

theorem search_bot_zero (r : Regex) (rest : Str) :
    search (.cat .bot r) 0 rest = (matchHere (.cat .bot r) 0 rest).map (fun m => ([], m)) := by
  cases rest with
  | nil => simp [search]
  | cons c t =>
    simp only [search]
    cases h : matchHere (.cat .bot r) 0 (c :: t) with
    | some m => simp
    | none => simp [search_bot_pos r 1 t (by omega)]

theorem expand_nil (whole : Str) (caps : List (Nat × Str)) (n : Nat) :
    expand whole caps n [] = [] := by
  cases n <;> simp [expand]

/-- Replacement by the empty template with an expression anchored at the
beginning of the text that only matches non-empty text. -/
theorem replaceAllString_bot (r : Regex) (l : Str) :
    ReplaceAllString (.cat .bot r) l [] =
      match matchHere (.cat .bot r) 0 l with
      | none => l
      | some m => if 0 < m.pos then replaceLoop (.cat .bot r) [] l.length m.pos [] m.rest
                  else match l with
                    | [] => []
                    | c :: t => replaceLoop (.cat .bot r) [] l.length 1 [c] t := by
  unfold ReplaceAllString
  rw [replaceLoop, search_bot_zero]
  cases h : matchHere (.cat .bot r) 0 l with
  | none => simp
  | some m =>
    simp only [Option.map_some', expand_nil]
    by_cases hp : 0 < m.pos
    · simp [hp]
    · simp only [hp, if_false]
      cases l <;> simp

theorem replaceLoop_bot_pos (r : Regex) (repl : Str) (n pos : Nat) (gap rest : Str)
    (h : 0 < pos) : replaceLoop (.cat .bot r) repl n pos gap rest = gap ++ rest := by
  cases n with
  | zero => simp [replaceLoop]
  | succ n => simp [replaceLoop, search_bot_pos r pos rest h]

theorem replaceAllString_bot_eq (r : Regex) (l : Str) :
    ReplaceAllString (.cat .bot r) l [] =
      match matchHere (.cat .bot r) 0 l with
      | none => l
      | some m => if 0 < m.pos then m.rest else l := by
  rw [replaceAllString_bot]
  cases h : matchHere (.cat .bot r) 0 l with
  | none => rfl
  | some m =>
    by_cases hp : 0 < m.pos
    · simp [hp, replaceLoop_bot_pos]
    · simp only [hp, if_false]
      cases l with
      | nil => rfl
      | cons c t => simp [replaceLoop_bot_pos]

theorem matchHere_bot_str_eot (w l : Str) :
    matchHere (.cat .bot (.cat (Regex.str w) .eot)) 0 l =
      if l = w then some ⟨w.length, [], []⟩ else none := by
  unfold matchHere
  rw [Regex.run, Regex.run, if_pos rfl, Regex.run, run_str]
  by_cases hp : w <+: l
  · obtain ⟨t, rfl⟩ := hp
    rw [if_pos (List.prefix_append _ _), List.drop_left]
    cases t with
    | nil => simp [Regex.run]
    | cons c t => simp [Regex.run]
  · have : l ≠ w := fun h => hp (h ▸ List.prefix_refl _)
    rw [if_neg hp, if_neg this]

/-- The godown rule on one line: a line that is exactly the tag becomes
empty, any other line is kept. -/
theorem replaceAllString_reDiv (l : Str) :
    ReplaceAllString reDiv l [] = if l = "<div>".toList then [] else l := by
  unfold reDiv
  rw [replaceAllString_bot_eq, matchHere_bot_str_eot]
  by_cases h : l = "<div>".toList
  · rw [if_pos h, if_pos h]
    rfl
  · rw [if_neg h, if_neg h]

theorem run_dot_cons (d : Char) (t : Str) (pos : Nat) (caps : List (Nat × Str))
    (k : MState → Option MState) (hd : d ≠ '\n') :
    Regex.dot.run ⟨pos, d :: t, caps⟩ k = k ⟨pos + 1, t, caps⟩ := by
  simp [Regex.run, hd]

theorem run_dot_nil (pos : Nat) (caps : List (Nat × Str)) (k : MState → Option MState) :
    Regex.dot.run ⟨pos, [], caps⟩ k = none := by
  simp [Regex.run]

theorem run_eot_nil (pos : Nat) (caps : List (Nat × Str)) :
    Regex.eot.run ⟨pos, [], caps⟩ some = some ⟨pos, [], caps⟩ := by
  simp [Regex.run]

theorem starLoop_dot_eot (rest : Str) (pos fuel : Nat) (caps : List (Nat × Str))
    (hnl : '\n' ∉ rest) (hf : rest.length < fuel) :
    starLoop Regex.dot.run true fuel ⟨pos, rest, caps⟩ (fun s1 => Regex.eot.run s1 some) =
      some ⟨pos + rest.length, [], caps⟩ := by
  induction rest generalizing pos fuel with
  | nil =>
    cases fuel with
    | zero => simp at hf
    | succ n =>
      rw [starLoop]
      simp only [run_dot_nil, run_eot_nil, if_true]
      rfl
  | cons d t ih =>
    cases fuel with
    | zero => simp at hf
    | succ n =>
      have hd : d ≠ '\n' := fun h => hnl (h ▸ List.mem_cons_self _ _)
      have ht : '\n' ∉ t := fun h => hnl (List.mem_cons_of_mem _ h)
      have hlen : t.length < n := by simpa using hf
      have := ih (pos + 1) n ht hlen
      rw [starLoop]
      simp only [run_dot_cons _ _ _ _ _ hd, Nat.lt_add_one, if_true, this, List.length_cons]
      rw [Nat.add_assoc, Nat.add_comm 1]

theorem matchHere_bot_str_dots_eot (w l : Str) (hnl : '\n' ∉ l) :
    matchHere (.cat .bot (.cat (Regex.str w) (.cat (.star true .dot) .eot))) 0 l =
      if w <+: l then some ⟨l.length, [], []⟩ else none := by
  unfold matchHere
  rw [Regex.run, Regex.run, if_pos rfl, Regex.run, run_str]
  by_cases hp : w <+: l
  · obtain ⟨t, rfl⟩ := hp
    have ht : '\n' ∉ t := fun h => hnl (List.mem_append_right _ h)
    rw [if_pos (List.prefix_append _ _), if_pos (List.prefix_append _ _), List.drop_left,
      Regex.run, Regex.run, starLoop_dot_eot t _ _ _ ht (by simp)]
    simp
  · rw [if_neg hp, if_neg hp]

/-- The fence rule on one line: a line that begins with three colons becomes
empty, any other line is kept. -/
theorem replaceAllString_reFence (l : Str) (hnl : '\n' ∉ l) :
    ReplaceAllString reFence l [] = if ":::".toList <+: l then [] else l := by
  unfold reFence
  rw [replaceAllString_bot_eq, matchHere_bot_str_dots_eot _ _ hnl]
  by_cases hp : ":::".toList <+: l
  · rw [if_pos hp, if_pos hp]
    obtain ⟨t, rfl⟩ := hp
    rfl
  · rw [if_neg hp, if_neg hp]

/-! ## Lines: lemmas -/

theorem rawLines_cons_nl (s : Str) : rawLines ('\n' :: s) = [] :: rawLines s := by
  simp [rawLines]

theorem rawLines_cons_of_ne (c : Char) (s : Str) (hc : c ≠ '\n') :
    rawLines (c :: s) = (c :: (rawLines s).headD []) :: (rawLines s).tail := by
  rw [rawLines, if_neg hc]
  cases rawLines s <;> rfl

theorem rawLines_no_nl (s l : Str) (h : l ∈ rawLines s) : '\n' ∉ l := by
  induction s generalizing l with
  | nil => simp [rawLines] at h
  | cons c s ih =>
    by_cases hc : c = '\n'
    · subst hc
      rw [rawLines_cons_nl, List.mem_cons] at h
      rcases h with h | h
      · subst h; simp
      · exact ih l h
    · rw [rawLines_cons_of_ne c s hc, List.mem_cons] at h
      rcases h with h | h
      · subst h
        intro hm
        rw [List.mem_cons] at hm
        rcases hm with hm | hm
        · exact hc hm.symm
        · cases hr : rawLines s with
          | nil => rw [hr] at hm; simp at hm
          | cons l0 ls =>
            rw [hr] at hm
            exact ih l0 (by rw [hr]; exact List.mem_cons_self _ _) hm
      · exact ih l (List.mem_of_mem_tail h)

theorem rawLines_append_nl (l rest : Str) (hl : '\n' ∉ l) :
    rawLines (l ++ '\n' :: rest) = l :: rawLines rest := by
  induction l with
  | nil => exact rawLines_cons_nl rest
  | cons c l ih =>
    have hc : c ≠ '\n' := fun h => hl (h ▸ List.mem_cons_self _ _)
    have ht : '\n' ∉ l := fun h => hl (List.mem_cons_of_mem _ h)
    rw [List.cons_append, rawLines_cons_of_ne _ _ hc, ih ht]
    rfl

theorem rawLines_joinLines (ls : List Str) (h : ∀ l ∈ ls, '\n' ∉ l) :
    rawLines (joinLines ls) = ls := by
  induction ls with
  | nil => rfl
  | cons l ls ih =>
    rw [joinLines, rawLines_append_nl l _ (h l (List.mem_cons_self _ _)),
      ih (fun x hx => h x (List.mem_cons_of_mem _ hx))]

theorem dropCR_no_nl (l : Str) (h : '\n' ∉ l) : '\n' ∉ dropCR l := by
  unfold dropCR
  split_ifs
  · exact fun hm => h (List.mem_of_mem_dropLast hm)
  · exact h

theorem scanLines_no_nl (s : Str) (ls : List Str) (h : scanLines s = some ls) :
    ∀ l ∈ ls, '\n' ∉ l := by
  unfold scanLines at h
  split_ifs at h
  have h := Option.some.inj h
  subst h
  intro l hl
  rw [List.mem_map] at hl
  obtain ⟨l0, h0, rfl⟩ := hl
  exact dropCR_no_nl l0 (rawLines_no_nl s l0 h0)

theorem writeLines_eq (regex : Regex) (repl : Str) (ls : List Str) :
    writeLines regex repl ls = joinLines (ls.map (fun l => ReplaceAllString regex l repl)) := by
  induction ls with
  | nil => rfl
  | cons l ls ih => rw [writeLines, List.map_cons, joinLines, ih]

/-! ## The blank-line rule: lemmas -/

theorem collapse3_nl3 (t : Str) :
    collapse3 ('\n' :: '\n' :: '\n' :: t) = '\n' :: '\n' :: collapse3 t := by
  rw [collapse3]

theorem collapse3_cons (c : Char) (t : Str) (h : ¬ ("\n\n\n".toList <+: c :: t)) :
    collapse3 (c :: t) = c :: collapse3 t := by
  rw [collapse3]
  intro t1 hc ht
  exact h ⟨t1, by rw [hc, ht]; rfl⟩

theorem matchHere_reNewlines (pos : Nat) (rest : Str) :
    matchHere reNewlines pos rest =
      if "\n\n\n".toList <+: rest then some ⟨pos + 3, rest.drop 3, []⟩ else none := by
  unfold matchHere reNewlines
  rw [run_str]
  rfl

theorem search_reNewlines (pos : Nat) (rest : Str) :
    match search reNewlines pos rest with
    | none => collapse3 rest = rest
    | some (sk, m) =>
      rest = sk ++ '\n' :: '\n' :: '\n' :: m.rest ∧ m.pos = pos + sk.length + 3 ∧
        collapse3 rest = sk ++ '\n' :: '\n' :: collapse3 m.rest := by
  induction rest generalizing pos with
  | nil =>
    have : search reNewlines pos [] = none := by
      rw [search, matchHere_reNewlines, if_neg (by decide)]
      rfl
    rw [this]
    rfl
  | cons c t ih =>
    rw [search, matchHere_reNewlines]
    by_cases hp : "\n\n\n".toList <+: c :: t
    · rw [if_pos hp]
      obtain ⟨u, hu⟩ := hp
      rw [← hu]
      exact ⟨rfl, rfl, collapse3_nl3 u⟩
    · rw [if_neg hp]
      have := ih (pos + 1)
      cases hs : search reNewlines (pos + 1) t with
      | none =>
        rw [hs] at this
        simp only [Option.map_none']
        rw [collapse3_cons c t hp, this]
      | some r =>
        obtain ⟨sk, m⟩ := r
        rw [hs] at this
        obtain ⟨h1, h2, h3⟩ := this
        simp only [Option.map_some']
        refine ⟨by rw [List.cons_append, ← h1], by rw [h2, List.length_cons]; omega, ?_⟩
        rw [collapse3_cons c t hp, h3, List.cons_append]

theorem expand_nl2 (whole : Str) (caps : List (Nat × Str)) :
    expand whole caps ("\n\n".toList.length + 1) "\n\n".toList = "\n\n".toList := by
  simp [expand]

theorem replaceLoop_reNewlines (n pos : Nat) (rest : Str) (h : rest.length < n) :
    replaceLoop reNewlines "\n\n".toList n pos [] rest = collapse3 rest := by
  induction n generalizing pos rest with
  | zero => simp at h
  | succ n ih =>
    rw [replaceLoop]
    have hs := search_reNewlines pos rest
    cases hr : search reNewlines pos rest with
    | none =>
      rw [hr] at hs
      simp only [List.nil_append]
      exact hs.symm
    | some r =>
      obtain ⟨sk, m⟩ := r
      rw [hr] at hs
      obtain ⟨h1, h2, h3⟩ := hs
      have hlt : pos < m.pos := by omega
      have hlen : m.rest.length < n := by
        have := congrArg List.length h1
        simp only [List.length_append, List.length_cons] at this
        omega
      simp only [List.nil_append, List.length_nil, Nat.sub_zero, hlt, true_or, if_true,
        expand_nl2, ih m.pos m.rest hlen]
      rw [h3]
      simp

/-- The global rule is the left-to-right replacement of three newlines by
two. -/
theorem applyGlobal_eq (u : Str) : applyGlobal globalRegexesToReplace u = collapse3 u := by
  unfold globalRegexesToReplace
  rw [applyGlobal, applyGlobal]
  exact replaceLoop_reNewlines _ 0 u (by simp)

/-- Induction along the recursion of `collapse3`. -/
theorem collapse3_cases (P : Str → Prop) (hnil : P [])
    (h3 : ∀ t, P t → P ('\n' :: '\n' :: '\n' :: t))
    (hc : ∀ c t, ¬ (['\n', '\n', '\n'] <+: c :: t) → P t → P (c :: t)) : ∀ u, P u := by
  suffices H : ∀ n, ∀ u : Str, u.length = n → P u from fun u => H _ u rfl
  intro n
  induction n using Nat.strong_induction_on with
  | _ n ih =>
    intro u hn
    cases u with
    | nil => exact hnil
    | cons c t =>
      by_cases hp : ['\n', '\n', '\n'] <+: c :: t
      · obtain ⟨v, hv⟩ := hp
        rw [← hv]
        apply h3
        apply ih v.length _ v rfl
        rw [← hn, ← hv]
        simp only [List.cons_append, List.nil_append, List.length_cons]
        omega
      · apply hc c t hp
        apply ih t.length _ t rfl
        rw [← hn]
        simp

theorem collapse3_cons_of_no_run (c : Char) (t : Str)
    (h : ¬ (['\n', '\n', '\n'] <+: c :: t)) : collapse3 (c :: t) = c :: collapse3 t :=
  collapse3_cons c t h

theorem collapse3_head (s : Str) : (collapse3 s).head? = s.head? := by
  cases s with
  | nil => rfl
  | cons c t =>
    by_cases hp : ['\n', '\n', '\n'] <+: c :: t
    · obtain ⟨v, hv⟩ := hp
      rw [← hv]
      rfl
    · rw [collapse3_cons_of_no_run c t hp]
      rfl

theorem collapse3_getLast (p : Str) : (collapse3 p).getLast? = p.getLast? := by
  apply collapse3_cases (fun p => (collapse3 p).getLast? = p.getLast?)
  · rfl
  · intro t ih
    rw [collapse3_nl3]
    simp only [List.getLast?_cons, ih]
    cases t.getLast? <;> rfl
  · intro c t hp ih
    rw [collapse3_cons_of_no_run c t hp, List.getLast?_cons, List.getLast?_cons, ih]

theorem collapse3_replicate (n : Nat) (s : Str) (hs : s.head? ≠ some '\n') :
    collapse3 (List.replicate n '\n' ++ s) =
      List.replicate (2 * (n / 3) + n % 3) '\n' ++ collapse3 s := by
  induction n using Nat.strong_induction_on with
  | _ n ih =>
    match n with
    | 0 => rfl
    | 1 =>
      have hp : ¬ (['\n', '\n', '\n'] <+: '\n' :: s) := by
        cases s with
        | nil => simp
        | cons d s =>
          simp only [List.cons_prefix_cons, true_and]
          intro h
          exact hs (by rw [← h.1]; rfl)
      show collapse3 ('\n' :: s) = '\n' :: collapse3 s
      exact collapse3_cons_of_no_run _ _ hp
    | 2 =>
      have hp1 : ¬ (['\n', '\n', '\n'] <+: '\n' :: s) := by
        cases s with
        | nil => simp
        | cons d s =>
          simp only [List.cons_prefix_cons, true_and]
          intro h
          exact hs (by rw [← h.1]; rfl)
      have hp2 : ¬ (['\n', '\n', '\n'] <+: '\n' :: '\n' :: s) := by
        cases s with
        | nil => simp
        | cons d s =>
          simp only [List.cons_prefix_cons, true_and]
          intro h
          exact hs (by rw [← h.1]; rfl)
      show collapse3 ('\n' :: '\n' :: s) = '\n' :: '\n' :: collapse3 s
      rw [collapse3_cons_of_no_run _ _ hp2, collapse3_cons_of_no_run _ _ hp1]
    | m + 3 =>
      have e1 : List.replicate (m + 3) '\n' ++ s =
          '\n' :: '\n' :: '\n' :: (List.replicate m '\n' ++ s) := rfl
      have e2 : 2 * ((m + 3) / 3) + (m + 3) % 3 = (2 * (m / 3) + m % 3) + 2 := by omega
      rw [e1, collapse3_nl3, ih m (by omega), e2]
      rfl

theorem collapse3_append (p x : Str) (hp : p.getLast? ≠ some '\n') :
    collapse3 (p ++ x) = collapse3 p ++ collapse3 x := by
  revert hp
  apply collapse3_cases (fun p => p.getLast? ≠ some '\n' → collapse3 (p ++ x) = collapse3 p ++ collapse3 x)
  · intro _; rfl
  · intro t ih hl
    have ht : t.getLast? ≠ some '\n' := by
      intro h
      apply hl
      simp only [List.getLast?_cons, h]
      rfl
    show collapse3 ('\n' :: '\n' :: '\n' :: (t ++ x)) = _
    rw [collapse3_nl3, collapse3_nl3, ih ht]
    rfl
  · intro c t hnp ih hl
    have ht : t.getLast? ≠ some '\n' := by
      intro h
      apply hl
      rw [List.getLast?_cons, h]
      rfl
    have hnp2 : ¬ (['\n', '\n', '\n'] <+: c :: (t ++ x)) := by
      intro h
      match t, hnp, hl, h with
      | [], _, hl, h =>
        simp only [List.cons_prefix_cons] at h
        exact hl (by rw [← h.1]; rfl)
      | [d], _, hl, h =>
        simp only [List.cons_prefix_cons, List.singleton_append] at h
        exact hl (by rw [← h.2.1]; rfl)
      | d :: e :: t1, hnp, _, h =>
        apply hnp
        simp only [List.cons_prefix_cons, List.cons_append, List.nil_prefix, and_true] at h ⊢
        exact h
    show collapse3 (c :: (t ++ x)) = _
    rw [collapse3_cons_of_no_run _ _ hnp2, collapse3_cons_of_no_run _ _ hnp, ih ht]
    rfl

theorem collapse3_prefix_nl2 (t : Str) (h : ['\n', '\n'] <+: collapse3 t) :
    ['\n', '\n'] <+: t := by
  cases t with
  | nil => simp [collapse3] at h
  | cons c t =>
    by_cases hp : ['\n', '\n', '\n'] <+: c :: t
    · obtain ⟨v, hv⟩ := hp
      rw [← hv]
      exact ⟨'\n' :: v, rfl⟩
    · rw [collapse3_cons_of_no_run c t hp, List.cons_prefix_cons] at h
      have h1 : (collapse3 t).head? = some '\n' := by
        obtain ⟨v, hv⟩ := h.2
        rw [← hv]
        rfl
      rw [collapse3_head] at h1
      cases t with
      | nil => simp at h1
      | cons d t =>
        simp only [List.head?_cons, Option.some.injEq] at h1
        rw [← h.1, h1]
        exact ⟨t, rfl⟩

/-- Without a run of four newlines before the rule there is no run of three
after it. -/
theorem collapse3_no_run3 (u : Str) (h : ¬ (['\n', '\n', '\n', '\n'] <:+: u)) :
    ¬ (['\n', '\n', '\n'] <:+: collapse3 u) := by
  revert h
  apply collapse3_cases
    (fun u => ¬ (['\n', '\n', '\n', '\n'] <:+: u) → ¬ (['\n', '\n', '\n'] <:+: collapse3 u))
  · intro _ h
    simp [collapse3] at h
  · intro t ih h4 h3
    have ht : ¬ (['\n', '\n', '\n', '\n'] <:+: t) := fun h =>
      h4 (h.trans ((List.suffix_cons _ _).trans
        ((List.suffix_cons _ _).trans (List.suffix_cons _ _))).isInfix)
    have hh : t.head? ≠ some '\n' := by
      intro hh
      apply h4
      cases t with
      | nil => simp at hh
      | cons d t =>
        simp only [List.head?_cons, Option.some.injEq] at hh
        rw [hh]
        exact (List.prefix_append ['\n', '\n', '\n', '\n'] t).isInfix
    rw [collapse3_nl3, List.infix_cons_iff, List.infix_cons_iff] at h3
    rcases h3 with h3 | h3 | h3
    · simp only [List.cons_prefix_cons, true_and] at h3
      apply hh
      rw [← collapse3_head]
      obtain ⟨v, hv⟩ := h3
      rw [← hv]
      rfl
    · simp only [List.cons_prefix_cons, true_and] at h3
      apply hh
      rw [← collapse3_head]
      obtain ⟨v, hv⟩ := h3
      rw [← hv]
      rfl
    · exact ih ht h3
  · intro c t hnp ih h4 h3
    have ht : ¬ (['\n', '\n', '\n', '\n'] <:+: t) := fun h =>
      h4 (h.trans (List.suffix_cons _ _).isInfix)
    rw [collapse3_cons_of_no_run c t hnp, List.infix_cons_iff] at h3
    rcases h3 with h3 | h3
    · apply hnp
      rw [List.cons_prefix_cons] at h3 ⊢
      exact ⟨h3.1, collapse3_prefix_nl2 t h3.2⟩
    · exact ih ht h3

/-- A text without a run of three newlines is left as it is. -/
theorem collapse3_id (u : Str) (h : ¬ (['\n', '\n', '\n'] <:+: u)) : collapse3 u = u := by
  induction u with
  | nil => rfl
  | cons c t ih =>
    rw [List.infix_cons_iff, not_or] at h
    rw [collapse3_cons_of_no_run c t h.1, ih h.2]

/-- The lines after the blank-line rule are lines of the text before it, with
the same first line. -/
theorem rawLines_collapse3 (u : Str) :
    (rawLines (collapse3 u)).Sublist (rawLines u) ∧
      (rawLines (collapse3 u)).head? = (rawLines u).head? := by
  apply collapse3_cases (fun u => (rawLines (collapse3 u)).Sublist (rawLines u) ∧
      (rawLines (collapse3 u)).head? = (rawLines u).head?)
  · exact ⟨List.Sublist.refl _, rfl⟩
  · intro t ih
    rw [collapse3_nl3]
    simp only [rawLines_cons_nl]
    exact ⟨List.Sublist.cons _ (List.Sublist.cons₂ _ (List.Sublist.cons₂ _ ih.1)), rfl⟩
  · intro c t hnp ih
    rw [collapse3_cons_of_no_run c t hnp]
    by_cases hc : c = '\n'
    · subst hc
      simp only [rawLines_cons_nl]
      exact ⟨List.Sublist.cons₂ _ ih.1, rfl⟩
    · rw [rawLines_cons_of_ne _ _ hc, rawLines_cons_of_ne _ _ hc]
      have hd : (rawLines (collapse3 t)).headD [] = (rawLines t).headD [] := by
        rw [List.headD_eq_head?_getD, List.headD_eq_head?_getD, ih.2]
      rw [hd]
      exact ⟨List.Sublist.cons₂ _ ih.1.tail, rfl⟩

set_option maxRecDepth 100000

/-! ## Normalizer: the blank-line rule (claims) -/

theorem postProcessMarkdown_eq (method : Str) (stuffToRemove : List Str) (order : List Rule)
    (markdown : Str) :
    postProcessMarkdown method stuffToRemove order markdown =
      (applyRules order (removeStuff stuffToRemove (stepContinuation method markdown))).map
        collapse3 := by
  unfold postProcessMarkdown
  cases applyRules order (removeStuff stuffToRemove (stepContinuation method markdown)) with
  | none => rfl
  | some m => simp [applyGlobal_eq]

theorem regexesToReplace_other (method : Str) (hp : method ≠ "pandoc".toList)
    (hg : method ≠ "godown".toList) : regexesToReplace method = [] := by
  unfold regexesToReplace
  rw [if_neg hp, if_neg hg]

theorem stepContinuation_other (method markdown : Str) (hp : method ≠ "pandoc".toList) :
    stepContinuation method markdown = markdown := by
  unfold stepContinuation
  rw [if_neg hp]

/-- C4, as stated, fails: four newlines between two words come out as three
newlines, for a method without a table, for `pandoc` and for `godown`. -/
theorem postProcessMarkdown_four_newlines_counterexample :
    postProcessMarkdown "other".toList [] (regexesToReplace "other".toList) "a\n\n\n\nb".toList =
        some "a\n\n\nb".toList ∧
      postProcessMarkdown "pandoc".toList [] (regexesToReplace "pandoc".toList)
          "a\n\n\n\nb".toList = some "a\n\n\nb\n".toList ∧
      postProcessMarkdown "godown".toList [] (regexesToReplace "godown".toList)
          "a\n\n\n\nb".toList = some "a\n\n\nb\n".toList ∧
      List.replicate 3 '\n' <:+: "a\n\n\nb".toList ∧
      List.replicate 3 '\n' <:+: "a\n\n\nb\n".toList := by
  refine ⟨by decide, by decide, by decide, ⟨['a'], ['b'], by decide⟩, ⟨['a'], ['b', '\n'], by decide⟩⟩

/-- C4, amended: for every method, removal list and order of the rules, let
`u` be the text that reaches the global step. The global step replaces, from
left to right, each occurrence of three newlines by two: a maximal run of `n`
newlines of `u` comes out as a run of `2 * (n / 3) + n % 3` newlines (three
become two, four become three), the text before and after the run being
treated on its own; and when `u` has no run of four or more newlines the
result has no run of three or more. -/
theorem postProcessMarkdown_newline_runs (method : Str) (stuffToRemove : List Str)
    (order : List Rule) (markdown u : Str)
    (hu : applyRules order (removeStuff stuffToRemove (stepContinuation method markdown)) =
      some u) :
    ∃ r, postProcessMarkdown method stuffToRemove order markdown = some r ∧
      (∀ (p s : Str) (n : Nat), u = p ++ List.replicate n '\n' ++ s →
        p.getLast? ≠ some '\n' → s.head? ≠ some '\n' →
          r = applyGlobal globalRegexesToReplace p ++ List.replicate (2 * (n / 3) + n % 3) '\n' ++
                applyGlobal globalRegexesToReplace s ∧
            (applyGlobal globalRegexesToReplace p).getLast? ≠ some '\n' ∧
            (applyGlobal globalRegexesToReplace s).head? ≠ some '\n') ∧
      (¬ (List.replicate 4 '\n' <:+: u) → ¬ (List.replicate 3 '\n' <:+: r)) := by
  refine ⟨collapse3 u, ?_, ?_, ?_⟩
  · rw [postProcessMarkdown_eq, hu]
    rfl
  · intro p s n hps hp hs
    rw [applyGlobal_eq, applyGlobal_eq, collapse3_getLast, collapse3_head, hps,
      List.append_assoc, collapse3_append _ _ hp, collapse3_replicate n s hs,
      List.append_assoc]
    exact ⟨rfl, hp, hs⟩
  · intro h
    exact collapse3_no_run3 u h

theorem postProcessMarkdown_newline_runs_witness :
    applyRules (regexesToReplace "godown".toList)
        (removeStuff [] (stepContinuation "godown".toList "a\n<div>\n\nb".toList)) =
          some "a\n\n\nb\n".toList ∧
      ∃ r, postProcessMarkdown "godown".toList [] (regexesToReplace "godown".toList)
          "a\n<div>\n\nb".toList = some r ∧
        (∀ (p s : Str) (n : Nat), "a\n\n\nb\n".toList = p ++ List.replicate n '\n' ++ s →
          p.getLast? ≠ some '\n' → s.head? ≠ some '\n' →
            r = applyGlobal globalRegexesToReplace p ++
                  List.replicate (2 * (n / 3) + n % 3) '\n' ++
                  applyGlobal globalRegexesToReplace s ∧
              (applyGlobal globalRegexesToReplace p).getLast? ≠ some '\n' ∧
              (applyGlobal globalRegexesToReplace s).head? ≠ some '\n') ∧
        (¬ (List.replicate 4 '\n' <:+: "a\n\n\nb\n".toList) →
          ¬ (List.replicate 3 '\n' <:+: r)) :=
  ⟨by decide, postProcessMarkdown_newline_runs "godown".toList []
    (regexesToReplace "godown".toList) "a\n<div>\n\nb".toList "a\n\n\nb\n".toList (by decide)⟩

/-- C5, as stated, fails: a second pass changes the result of the first on
four newlines (any method), on nested attribute spans (`pandoc`) and on a
`<div>` line followed by two carriage returns (`godown`). -/
theorem postProcessMarkdown_second_pass_counterexample :
    (postProcessMarkdown "other".toList [] [] "a\n\n\n\nb".toList = some "a\n\n\nb".toList ∧
      postProcessMarkdown "other".toList [] [] "a\n\n\nb".toList = some "a\n\nb".toList) ∧
    (postProcessMarkdown "pandoc".toList [] pandocRegexesToReplace
        "\x7b.a\x7b.b\x7d\x7d".toList = some "\x7b.a\x7d\n".toList ∧
      postProcessMarkdown "pandoc".toList [] pandocRegexesToReplace
        "\x7b.a\x7d\n".toList = some "\n".toList) ∧
    (postProcessMarkdown "godown".toList [] godownRegexesToReplace
        "<div>\r\r\n".toList = some "<div>\r\n".toList ∧
      postProcessMarkdown "godown".toList [] godownRegexesToReplace
        "<div>\r\n".toList = some "\n".toList) := by
  refine ⟨⟨by decide, by decide⟩, ⟨by decide, by decide⟩, ⟨by decide, by decide⟩⟩

/-- C5, amended: for a method without a rule table (neither `pandoc` nor
`godown`) and an empty removal list, where only the global blank-line rule
acts, `postProcessMarkdown` is idempotent on every text that has no run of
four or more newlines. -/
theorem postProcessMarkdown_idempotent (method : Str) (hp : method ≠ "pandoc".toList)
    (hg : method ≠ "godown".toList) (order : List Rule)
    (ho : order.Perm (regexesToReplace method)) (markdown : Str)
    (h4 : ¬ (List.replicate 4 '\n' <:+: markdown)) :
    ∃ r, postProcessMarkdown method [] order markdown = some r ∧
      postProcessMarkdown method [] order r = some r := by
  rw [regexesToReplace_other method hp hg] at ho
  have ho : order = [] := List.Perm.eq_nil ho
  subst ho
  refine ⟨collapse3 markdown, ?_, ?_⟩
  · rw [postProcessMarkdown_eq, stepContinuation_other _ _ hp]
    rfl
  · rw [postProcessMarkdown_eq, stepContinuation_other _ _ hp]
    show some (collapse3 (collapse3 markdown)) = _
    rw [collapse3_id _ (collapse3_no_run3 markdown h4)]

theorem postProcessMarkdown_idempotent_witness :
    "other".toList ≠ "pandoc".toList ∧ "other".toList ≠ "godown".toList ∧
      List.Perm [] (regexesToReplace "other".toList) ∧
      ¬ (List.replicate 4 '\n' <:+: "a\n\n\nb\n\nc".toList) ∧
      ∃ r, postProcessMarkdown "other".toList [] [] "a\n\n\nb\n\nc".toList = some r ∧
        postProcessMarkdown "other".toList [] [] r = some r :=
  ⟨by decide, by decide, List.Perm.refl _, by decide,
    postProcessMarkdown_idempotent "other".toList (by decide) (by decide) []
      (List.Perm.refl _) "a\n\n\nb\n\nc".toList (by decide)⟩

/-! ## Normalizer: order of the rules (claims) -/

/-- C6, as stated, fails: on the line `{.a}:::x` the four pandoc rules give
different texts in two orders (attribute rule after or before the fence
rule). -/
theorem postProcessMarkdown_order_counterexample :
    List.Perm [(reAttr, []), (reFence, []),
        (reCode, [Char.ofNat 96, Char.ofNat 96, Char.ofNat 96]), (reBracket, "__$2__".toList)]
        pandocRegexesToReplace ∧
      postProcessMarkdown "pandoc".toList [] pandocRegexesToReplace "\x7b.a\x7d:::x".toList =
        some ":::x\n".toList ∧
      postProcessMarkdown "pandoc".toList []
        [(reAttr, []), (reFence, []),
          (reCode, [Char.ofNat 96, Char.ofNat 96, Char.ofNat 96]), (reBracket, "__$2__".toList)]
        "\x7b.a\x7d:::x".toList = some "\n".toList := by
  refine ⟨by decide, by decide, by decide⟩

/-- C6, amended: for every method other than `pandoc` (the one rule of
`godown`, no rule otherwise), every removal list and every input text, the
result is the same in whatever order the table of the method is visited. -/
theorem postProcessMarkdown_order_independent (method : Str) (hp : method ≠ "pandoc".toList)
    (stuffToRemove : List Str) (o1 o2 : List Rule) (h1 : o1.Perm (regexesToReplace method))
    (h2 : o2.Perm (regexesToReplace method)) (markdown : Str) :
    postProcessMarkdown method stuffToRemove o1 markdown =
      postProcessMarkdown method stuffToRemove o2 markdown := by
  have h : o1.Perm o2 := h1.trans h2.symm
  have hlen : (regexesToReplace method).length ≤ 1 := by
    unfold regexesToReplace
    rw [if_neg hp]
    split_ifs <;> simp [godownRegexesToReplace]
  have : o1 = o2 := by
    have hl2 : o2.length ≤ 1 := by rw [h2.length_eq]; exact hlen
    match o2, hl2, h with
    | [], _, h => exact List.Perm.eq_nil h
    | [x], _, h => exact List.perm_singleton.mp h
  rw [this]

theorem postProcessMarkdown_order_independent_witness :
    "godown".toList ≠ "pandoc".toList ∧
      List.Perm godownRegexesToReplace (regexesToReplace "godown".toList) ∧
      postProcessMarkdown "godown".toList [] godownRegexesToReplace "a\n<div>\nb".toList =
        postProcessMarkdown "godown".toList [] godownRegexesToReplace "a\n<div>\nb".toList :=
  ⟨by decide, List.Perm.refl _,
    postProcessMarkdown_order_independent "godown".toList (by decide) []
      godownRegexesToReplace godownRegexesToReplace (List.Perm.refl _) (List.Perm.refl _)
      "a\n<div>\nb".toList⟩

/-! ## Normalizer: the first step (claims) -/

theorem replaceScan_append (old new p x : Str)
    (h : ∀ p1 p2 : Str, p = p1 ++ p2 → p2 ≠ [] → ¬ (old <+: p2 ++ x)) :
    replaceScan old new 0 (p ++ x) = p ++ replaceScan old new 0 x := by
  induction p with
  | nil => rfl
  | cons c p ih =>
    have h0 : ¬ (old <+: c :: (p ++ x)) := h [] (c :: p) rfl (by simp)
    have h0b : old.isPrefixOf (c :: (p ++ x)) = false := by
      rw [← Bool.not_eq_true, List.isPrefixOf_iff_prefix]
      exact h0
    rw [List.cons_append, replaceScan, h0b,
      ih (fun p1 p2 hp hne => h (c :: p1) p2 (by rw [hp]; rfl) hne)]
    rfl

theorem no_pattern_inside (p x : Str) (hp : '\\' ∉ p)
    (hx : ∀ c t, x = c :: t → c = '\\' → t.head? ≠ some '\n') :
    ∀ p1 p2 : Str, p = p1 ++ p2 → p2 ≠ [] → ¬ (['\n', '\\', '\n'] <+: p2 ++ x) := by
  intro p1 p2 hpp hne hpre
  have hp2 : '\\' ∉ p2 := fun h => hp (by rw [hpp]; exact List.mem_append_right _ h)
  match p2, hne, hp2, hpre with
  | [d], _, _, hpre =>
    match x, hx, hpre with
    | [], _, hpre => simp at hpre
    | c :: t, hx, hpre =>
      simp only [List.singleton_append, List.cons_prefix_cons] at hpre
      have := hx c t rfl hpre.2.1.symm
      match t, this, hpre with
      | [], _, hpre => simp at hpre
      | e :: t, this, hpre =>
        simp only [List.cons_prefix_cons] at hpre
        exact this (by rw [← hpre.2.2.1]; rfl)
  | d :: e :: p3, _, hp2, hpre =>
    simp only [List.cons_append, List.cons_prefix_cons] at hpre
    exact hp2 (by rw [← hpre.2.1]; simp)

theorem replaceAll_continuation (s : Str) :
    ReplaceAll s "\n\\\n".toList "\n".toList = replaceScan ['\n', '\\', '\n'] ['\n'] 0 s := by
  unfold ReplaceAll
  rw [if_neg (by decide), if_neg (by decide)]
  rfl

theorem replaceScan_continuation_hit (s : Str) :
    replaceScan ['\n', '\\', '\n'] ['\n'] 0 ('\n' :: '\\' :: '\n' :: s) =
      '\n' :: replaceScan ['\n', '\\', '\n'] ['\n'] 0 s := by
  simp [replaceScan]

theorem replaceScan_continuation_miss (c : Char) (s : Str) (hc : c ≠ '\n') :
    replaceScan ['\n', '\\', '\n'] ['\n'] 0 (c :: s) =
      c :: replaceScan ['\n', '\\', '\n'] ['\n'] 0 s := by
  have : ¬ ('\n' = c) := fun h => hc h.symm
  simp [replaceScan, this]

/-- C7, as stated, fails: a backslash at the end of the line `a` stays where
it is; only a backslash that is alone on its line goes. -/
theorem postProcessMarkdown_backslash_counterexample :
    postProcessMarkdown "pandoc".toList [] pandocRegexesToReplace "a\\\nb".toList =
        some "a\\\nb\n".toList ∧
      '\\' ∈ "a\\\nb\n".toList := by
  refine ⟨by decide, by decide⟩

/-- C7, amended: with method `pandoc` the first step replaces, from left to
right, every occurrence of newline, backslash, newline by one newline, that
is, it removes a backslash that stands alone on its line together with one
line break; a backslash that follows another character on its line stays.
`postProcessMarkdown` is the remaining steps (removals, pandoc rules, global
rule) applied to the text so rewritten. The three lines `a`, backslash, `b`
normalize to the two lines `a` and `b`. -/
theorem postProcessMarkdown_pandoc_first_step (stuffToRemove : List Str) (order : List Rule)
    (markdown : Str) :
    postProcessMarkdown "pandoc".toList stuffToRemove order markdown =
        (applyRules order
          (removeStuff stuffToRemove (ReplaceAll markdown "\n\\\n".toList "\n".toList))).map
          (applyGlobal globalRegexesToReplace) ∧
      (∀ p s : Str, '\\' ∉ p →
        ReplaceAll (p ++ '\n' :: '\\' :: '\n' :: s) "\n\\\n".toList "\n".toList =
          p ++ '\n' :: ReplaceAll s "\n\\\n".toList "\n".toList) ∧
      (∀ (p : Str) (c : Char) (s : Str), '\\' ∉ p → c ≠ '\n' →
        ReplaceAll (p ++ c :: '\\' :: '\n' :: s) "\n\\\n".toList "\n".toList =
          p ++ c :: '\\' :: ReplaceAll ('\n' :: s) "\n\\\n".toList "\n".toList) ∧
      (∀ p : Str, '\\' ∉ p → ReplaceAll p "\n\\\n".toList "\n".toList = p) ∧
      postProcessMarkdown "pandoc".toList [] pandocRegexesToReplace "a\n\\\nb".toList =
        some "a\nb\n".toList := by
  refine ⟨?_, ?_, ?_, ?_, by decide⟩
  · unfold postProcessMarkdown stepContinuation
    rw [if_pos rfl]
    cases applyRules order
      (removeStuff stuffToRemove (ReplaceAll markdown "\n\\\n".toList "\n".toList)) <;> rfl
  · intro p s hp
    rw [replaceAll_continuation, replaceAll_continuation,
      replaceScan_append _ _ p _ (no_pattern_inside p _ hp (by
        intro c t hx hc
        rw [List.cons.injEq] at hx
        rw [← hx.1] at hc
        exact absurd hc (by decide))),
      replaceScan_continuation_hit]
  · intro p c s hp hc
    rw [replaceAll_continuation, replaceAll_continuation,
      replaceScan_append _ _ p _ (no_pattern_inside p _ hp (by
        intro c1 t hx _
        rw [List.cons.injEq] at hx
        rw [← hx.2]
        simp)),
      replaceScan_continuation_miss c _ hc,
      replaceScan_continuation_miss '\\' _ (by decide)]
  · intro p hp
    have := replaceScan_append ['\n', '\\', '\n'] ['\n'] p []
      (no_pattern_inside p [] hp (by intro c t hx; simp at hx))
    rw [List.append_nil] at this
    rw [replaceAll_continuation, this]
    simp [replaceScan]

/-! ## Normalizer: line rules (claims) -/

theorem replaceAll_eq_map (str : Str) (regex : Regex) (repl : Str) :
    replaceAll str regex repl =
      (scanLines str).map
        (fun ls => joinLines (ls.map (fun l => ReplaceAllString regex l repl))) := by
  unfold replaceAll
  cases scanLines str with
  | none => rfl
  | some ls => simp [writeLines_eq]

theorem applyRules_append (o1 o2 : List Rule) (m : Str) :
    applyRules (o1 ++ o2) m = (applyRules o1 m).bind (applyRules o2) := by
  induction o1 generalizing m with
  | nil => rfl
  | cons x o1 ih =>
    obtain ⟨regex, repl⟩ := x
    rw [List.cons_append, applyRules, applyRules]
    cases replaceAll m regex repl with
    | none => rfl
    | some m1 => exact ih m1

theorem applyRules_single (regex : Regex) (repl m : Str) :
    applyRules [(regex, repl)] m = replaceAll m regex repl := by
  rw [applyRules]
  cases replaceAll m regex repl <;> rfl

theorem replaceAll_reFence (str : Str) :
    replaceAll str reFence [] =
      (scanLines str).map
        (fun ls => joinLines (ls.map (fun l => if ":::".toList <+: l then [] else l))) := by
  rw [replaceAll_eq_map]
  cases h : scanLines str with
  | none => rfl
  | some ls =>
    simp only [Option.map_some', Option.some.injEq]
    congr 1
    apply List.map_congr_left
    intro l hl
    exact replaceAllString_reFence l (scanLines_no_nl str ls h l hl)

theorem replaceAll_reDiv (str : Str) :
    replaceAll str reDiv [] =
      (scanLines str).map
        (fun ls => joinLines (ls.map (fun l => if l = "<div>".toList then [] else l))) := by
  rw [replaceAll_eq_map]
  cases h : scanLines str with
  | none => rfl
  | some ls =>
    simp only [Option.map_some', Option.some.injEq]
    congr 1
    apply List.map_congr_left
    intro l _
    exact replaceAllString_reDiv l

/-- After a line rule whose lines all satisfy `P` (and hold no newline), and
after the global rule, every line of the text satisfies `P`. -/
theorem lines_after_rule (P : Str → Prop) (f : Str → Str) (ls : List Str)
    (hnl : ∀ l ∈ ls, '\n' ∉ f l) (hP : ∀ l ∈ ls, P (f l)) :
    ∀ l ∈ rawLines (collapse3 (joinLines (ls.map f))), P l := by
  intro l hl
  have h1 := (rawLines_collapse3 (joinLines (ls.map f))).1.subset hl
  rw [rawLines_joinLines _ (by
    intro x hx
    rw [List.mem_map] at hx
    obtain ⟨y, hy, rfl⟩ := hx
    exact hnl y hy)] at h1
  rw [List.mem_map] at h1
  obtain ⟨y, hy, rfl⟩ := h1
  exact hP y hy

/-- C8, as stated, fails: the line `::: note` is emptied but its line break
stays, so an empty line remains between `a` and `b`. -/
theorem postProcessMarkdown_fence_counterexample :
    postProcessMarkdown "pandoc".toList [] pandocRegexesToReplace "a\n::: note\nb".toList =
        some "a\n\nb\n".toList ∧
      rawLines "a\n\nb\n".toList = ["a".toList, [], "b".toList] := by
  refine ⟨by decide, by decide⟩

/-- C8, amended: with method `pandoc`, the fence rule turns every line that
begins with `:::` when the rule runs into an empty line: the text of the line
is removed, its line break is kept, every other line is unchanged. The three
lines `a`, `::: note`, `b` normalize to the three lines `a`, empty, `b`, in
whatever order the four rules are applied. When the fence rule is the last of
the rules to be applied, no line of the output begins with `:::`. -/
theorem postProcessMarkdown_pandoc_fence :
    (∀ (str : Str) (ls : List Str), scanLines str = some ls →
      replaceAll str reFence [] =
        some (joinLines (ls.map (fun l => if ":::".toList <+: l then [] else l)))) ∧
      (∀ order : List Rule, order.Perm pandocRegexesToReplace →
        postProcessMarkdown "pandoc".toList [] order "a\n::: note\nb".toList =
          some "a\n\nb\n".toList) ∧
      (∀ (stuffToRemove : List Str) (before : List Rule) (markdown r : Str),
        postProcessMarkdown "pandoc".toList stuffToRemove (before ++ [(reFence, [])]) markdown =
          some r → ∀ l ∈ rawLines r, ¬ (":::".toList <+: l)) := by
  refine ⟨?_, ?_, ?_⟩
  · intro str ls h
    rw [replaceAll_reFence, h]
    rfl
  · intro order ho
    have hall : ∀ o ∈ pandocRegexesToReplace.permutations',
        postProcessMarkdown "pandoc".toList [] o "a\n::: note\nb".toList =
          some "a\n\nb\n".toList := by decide
    exact hall order (List.mem_permutations'.mpr ho)
  · intro stuffToRemove before markdown r h
    rw [postProcessMarkdown_eq, applyRules_append] at h
    cases h1 : applyRules before
        (removeStuff stuffToRemove (stepContinuation "pandoc".toList markdown)) with
    | none => rw [h1] at h; simp at h
    | some m =>
      rw [h1, Option.some_bind, applyRules_single, replaceAll_reFence] at h
      cases h2 : scanLines m with
      | none => rw [h2] at h; simp at h
      | some ls =>
        rw [h2] at h
        simp only [Option.map_some', Option.some.injEq] at h
        rw [← h]
        apply lines_after_rule (fun l => ¬ (":::".toList <+: l))
        · intro l hl
          have := scanLines_no_nl m ls h2 l hl
          split_ifs
          · simp
          · exact this
        · intro l _
          split_ifs with hp
          · decide
          · exact hp

/-- C9: the code does not do what the claim says. The template `__$2__` is
read by `Regexp.expand` as `__` followed by the variable named `2__`, which is
no group of the expression, so every match of the bracket rule is replaced by
`__` alone: the bracketed text and the character before the bracket are lost.
The line `see [note]` becomes `see__` in whatever order the rules run. -/
theorem postProcessMarkdown_bracket_loses_text :
    (∀ (whole : Str) (caps : List (Nat × Str)),
      expand whole caps ("__$2__".toList.length + 1) "__$2__".toList = "__".toList) ∧
      (∀ order : List Rule, order.Perm pandocRegexesToReplace →
        postProcessMarkdown "pandoc".toList [] order "see [note]".toList =
          some "see__\n".toList) := by
  refine ⟨?_, ?_⟩
  · intro whole caps
    simp [expand, isNameChar, nameNum]
  · intro order ho
    have hall : ∀ o ∈ pandocRegexesToReplace.permutations',
        postProcessMarkdown "pandoc".toList [] o "see [note]".toList =
          some "see__\n".toList := by decide
    exact hall order (List.mem_permutations'.mpr ho)

/-- C10: with method `godown`, for every removal list and input text, no line
of the result of `postProcessMarkdown` is exactly `<div>`; and a result exists
whenever every line of the text left by the removals is shorter than the
scanner limit. -/
theorem postProcessMarkdown_godown_no_div_line (stuffToRemove : List Str) (order : List Rule)
    (ho : order.Perm (regexesToReplace "godown".toList)) (markdown : Str) :
    (∀ r, postProcessMarkdown "godown".toList stuffToRemove order markdown = some r →
        "<div>".toList ∉ rawLines r) ∧
      ((∀ l ∈ rawLines (removeStuff stuffToRemove markdown), byteLen l < MaxScanTokenSize) →
        ∃ r, postProcessMarkdown "godown".toList stuffToRemove order markdown = some r) := by
  have ho : order = [(reDiv, [])] := List.perm_singleton.mp ho
  subst ho
  have hs : stepContinuation "godown".toList markdown = markdown :=
    stepContinuation_other _ _ (by decide)
  rw [postProcessMarkdown_eq, applyRules_single, replaceAll_reDiv, hs]
  constructor
  · intro r h
    cases h2 : scanLines (removeStuff stuffToRemove markdown) with
    | none => rw [h2] at h; simp at h
    | some ls =>
      rw [h2] at h
      simp only [Option.map_some', Option.some.injEq] at h
      rw [← h]
      intro hmem
      refine lines_after_rule (fun l => l ≠ "<div>".toList) _ ls ?_ ?_ _ hmem rfl
      · intro l hl
        have := scanLines_no_nl _ ls h2 l hl
        split_ifs
        · simp
        · exact this
      · intro l _
        split_ifs with hp
        · decide
        · exact hp
  · intro hlen
    have : scanLines (removeStuff stuffToRemove markdown) =
        some ((rawLines (removeStuff stuffToRemove markdown)).map dropCR) := by
      unfold scanLines
      rw [if_pos]
      rw [List.all_eq_true]
      intro l hl
      exact decide_eq_true (hlen l hl)
    rw [this]
    exact ⟨_, rfl⟩

theorem postProcessMarkdown_godown_no_div_line_witness :
    List.Perm godownRegexesToReplace (regexesToReplace "godown".toList) ∧
      postProcessMarkdown "godown".toList ["x".toList] godownRegexesToReplace
        "a\n<dxiv>\n\n<div>\r\nb".toList = some "a\n\n\nb\n".toList ∧
      ((∀ r, postProcessMarkdown "godown".toList ["x".toList] godownRegexesToReplace
          "a\n<dxiv>\n\n<div>\r\nb".toList = some r → "<div>".toList ∉ rawLines r) ∧
        ((∀ l ∈ rawLines (removeStuff ["x".toList] "a\n<dxiv>\n\n<div>\r\nb".toList),
            byteLen l < MaxScanTokenSize) →
          ∃ r, postProcessMarkdown "godown".toList ["x".toList] godownRegexesToReplace
            "a\n<dxiv>\n\n<div>\r\nb".toList = some r)) :=
  ⟨List.Perm.refl _, by decide,
    postProcessMarkdown_godown_no_div_line ["x".toList] godownRegexesToReplace
      (List.Perm.refl _) "a\n<dxiv>\n\n<div>\r\nb".toList⟩

theorem postProcessMarkdown_pandoc_fence_witness :
    List.Perm pandocRegexesToReplace pandocRegexesToReplace ∧
      postProcessMarkdown "pandoc".toList [] pandocRegexesToReplace "a\n::: note\nb".toList =
        some "a\n\nb\n".toList :=
  ⟨List.Perm.refl _, postProcessMarkdown_pandoc_fence.2.1 pandocRegexesToReplace (List.Perm.refl _)⟩

theorem postProcessMarkdown_bracket_loses_text_witness :
    List.Perm pandocRegexesToReplace pandocRegexesToReplace ∧
      postProcessMarkdown "pandoc".toList [] pandocRegexesToReplace "see [note]".toList =
        some "see__\n".toList :=
  ⟨List.Perm.refl _,
    postProcessMarkdown_bracket_loses_text.2 pandocRegexesToReplace (List.Perm.refl _)⟩

end Converter
